import Mathlib

/-!
Verification development for the youtube_no_si repository.

The repository is a small Telegram bot whose core logic is a pure URL
transformation: remove the `si` tracking query parameter from YouTube links.
We shallowly embed the relevant Rust functions
(src/remove_si.rs, src/bot/remove_si.rs, src/bot.rs, src/bot/thank_react.rs)
together with the pieces of the third-party `url` crate they rely on
(`Url::query_pairs`, `Url::set_query`, `Url::host`, `Url::parse`).

Strings are modelled at byte granularity: one `Char` stands for one byte of
the Rust string (the inputs of interest are ASCII, where the two views
coincide).  Percent-decoding of a `%XY` escape therefore produces the single
char with code `16*X+Y`, exactly the byte the Rust code produces.
-/

namespace YoutubeNoSi

/-! ### Data model: parsed URLs (from the `url` crate)

`Url` keeps the components the repository reads or writes: scheme, host,
path, query and fragment.  Username, password and port are not used by any
of the embedded functions and are omitted.  -/

inductive Host where
  | domain (d : String)
  | ipv4 (addr : Nat)
  | ipv6 (addr : Nat)
deriving DecidableEq, Repr

structure Url where
  scheme : String
  host : Option Host
  path : String
  query : Option String
  fragment : Option String
deriving DecidableEq, Repr

/-! ### Generic list/char helpers used by the `url` crate model -/

/-- Split a char list on a separator char; mirrors splitting a byte slice on
`b'&'` the way `form_urlencoded::parse` walks the query.  Always returns a
nonempty list of (possibly empty) pieces. -/
def splitOnChar (sep : Char) : List Char → List (List Char)
  | [] => [[]]
  | c :: rest =>
    let r := splitOnChar sep rest
    if c = sep then [] :: r
    else (c :: r.headD []) :: r.tail

/-- Split a piece at the first `=`: `splitn(2, b'=')` with the value
defaulting to empty, as in `form_urlencoded::parse`. -/
def splitKV : List Char → List Char × List Char
  | [] => ([], [])
  | c :: rest =>
    if c = '=' then ([], rest)
    else
      let p := splitKV rest
      (c :: p.1, p.2)

/-- Numeric value of an ASCII hex digit char (0 for non-hex chars;
only consulted after `isHexDigit`). -/
def hexVal (c : Char) : Nat :=
  if 0x30 ≤ c.toNat ∧ c.toNat ≤ 0x39 then c.toNat - 0x30
  else if 0x61 ≤ c.toNat ∧ c.toNat ≤ 0x66 then c.toNat - 0x61 + 10
  else if 0x41 ≤ c.toNat ∧ c.toNat ≤ 0x46 then c.toNat - 0x41 + 10
  else 0

def isHexDigit (c : Char) : Bool :=
  (0x30 ≤ c.toNat && c.toNat ≤ 0x39) ||
  (0x61 ≤ c.toNat && c.toNat ≤ 0x66) ||
  (0x41 ≤ c.toNat && c.toNat ≤ 0x46)

/-- Percent-decoding as in the `percent-encoding` crate: a `%` followed by
two hex digits becomes the corresponding byte; otherwise the `%` is kept
literally and decoding continues with the following char.  Structured with
an explicit fuel argument (one unit per emitted char; the input length
suffices) so the function is structurally recursive. -/
def percentDecodeFuel : Nat → List Char → List Char
  | _, [] => []
  | 0, l => l
  | fuel + 1, c :: rest =>
    if c = '%' then
      match rest with
      | h1 :: h2 :: rest' =>
        if isHexDigit h1 && isHexDigit h2 then
          Char.ofNat (16 * hexVal h1 + hexVal h2) :: percentDecodeFuel fuel rest'
        else c :: percentDecodeFuel fuel rest
      | _ => c :: percentDecodeFuel fuel rest
    else c :: percentDecodeFuel fuel rest

def percentDecode (l : List Char) : List Char :=
  percentDecodeFuel l.length l

/-- Value decoding of `form_urlencoded`: replace `+` by space, then
percent-decode. -/
def decodePart (l : List Char) : List Char :=
  percentDecode (l.map fun c => if c = '+' then ' ' else c)

/-- Model of `Url::query_pairs` (via `form_urlencoded::parse`): split the raw
query on `&`, drop empty pieces, split each piece at the first `=`, and
decode key and value. -/
def parseQueryPairs (q : List Char) : List (List Char × List Char) :=
  ((splitOnChar '&' q).filter (fun p => !p.isEmpty)).map
    (fun p => (decodePart (splitKV p).1, decodePart (splitKV p).2))

/-- The query-string builder loop of `remove_si_from_url`: starting from an
empty string, push `&` before every pair except the first, then push
`key=value`. -/
def buildQuery (pairs : List (List Char × List Char)) : List Char :=
  pairs.foldl
    (fun acc kv => (if acc.isEmpty then acc else acc ++ ['&']) ++ kv.1 ++ '=' :: kv.2)
    []

/-- Join pieces with a separator char. -/
def intercalateChar (sep : Char) : List (List Char) → List Char
  | [] => []
  | [p] => p
  | p :: q :: rest => p ++ sep :: intercalateChar sep (q :: rest)

/-- Each piece prefixed by `&`, concatenated; the tail shape of
`intercalateChar '&'`. -/
def ampJoin (ps : List (List Char)) : List Char :=
  ps.foldr (fun p acc => '&' :: (p ++ acc)) []

/-- WHATWG special schemes (`SchemeType::is_special` in the `url` crate). -/
def isSpecialScheme (s : String) : Bool :=
  s ∈ ["http", "https", "ws", "wss", "ftp", "file"]

/-- Chars percent-encoded by the query percent-encode set used by
`Url::set_query`: C0 controls (≤ 0x1f), DEL and non-ASCII (≥ 0x7f), space
(0x20), `"` (0x22), `#` (0x23), `<` (0x3c), `>` (0x3e); for special schemes
additionally the apostrophe char (0x27). -/
def queryEncodesChar (special : Bool) (c : Char) : Bool :=
  c.toNat ≤ 0x1f || 0x7f ≤ c.toNat ||
  c.toNat == 0x20 || c.toNat == 0x22 || c.toNat == 0x23 ||
  c.toNat == 0x3c || c.toNat == 0x3e ||
  (special && c.toNat == 0x27)

def upperHexDigit (n : Nat) : Char :=
  if n < 10 then Char.ofNat (0x30 + n) else Char.ofNat (0x41 + n - 10)

def percentEncodeChar (c : Char) : List Char :=
  ['%', upperHexDigit (c.toNat / 16 % 16), upperHexDigit (c.toNat % 16)]

/-- Tab (0x09), LF (0x0a), CR (0x0d): removed from `set_query` input by
`Input::new_trim_tab_and_newlines`. -/
def isTabOrNewline (c : Char) : Bool :=
  c.toNat == 0x09 || c.toNat == 0x0a || c.toNat == 0x0d

/-- Model of `Url::set_query (Some input)`: drop tabs and newlines, then
percent-encode with the (special-)query percent-encode set. -/
def encodeQueryInput (special : Bool) (l : List Char) : List Char :=
  ((l.filter (fun c => !isTabOrNewline c)).map
    (fun c => if queryEncodesChar special c then percentEncodeChar c else [c])).flatten

/-- A query byte that round-trips through `form_urlencoded` decoding and
the query percent-encoder unchanged: printable ASCII (0x21-0x7e), not one
of `"` (0x22), `#` (0x23), `<` (0x3c), `>` (0x3e), the apostrophe char
(0x27), `%` (0x25) or `+` (0x2b).  Used to state the amended preservation
and idempotence claims. -/
def plainQueryChar (c : Char) : Bool :=
  0x20 < c.toNat && c.toNat < 0x7f &&
  c.toNat != 0x22 && c.toNat != 0x23 && c.toNat != 0x3c && c.toNat != 0x3e &&
  c.toNat != 0x27 && c.toNat != 0x25 && c.toNat != 0x2b

/-- Model of `str::contains` for a needle on a char-list haystack. -/
def hasSubstr : List Char → List Char → Bool
  | [], needle => needle.isEmpty
  | hay@(_ :: t), needle => needle.isPrefixOf hay || hasSubstr t needle

def hostChars : Host → List Char
  | Host.domain d => d.toList
  | Host.ipv4 addr => Nat.toDigits 10 addr
  | Host.ipv6 addr => Nat.toDigits 10 addr

/-- Model of `Url::as_str` for the components we track. -/
def serializeUrlChars (u : Url) : List Char :=
  u.scheme.toList ++ ':' ::
    ((match u.host with
      | some h => '/' :: '/' :: hostChars h
      | none => []) ++
     u.path.toList ++
     (match u.query with
      | some q => '?' :: q.toList
      | none => []) ++
     (match u.fragment with
      | some f => '#' :: f.toList
      | none => []))

def serializeUrl (u : Url) : String :=
  String.mk (serializeUrlChars u)

/-! ### src/remove_si.rs -/

namespace RemoveSi

def YOUTUBE_DOMAINS : List String := ["youtube.com", "www.youtube.com", "youtu.be"]

def url_belongs_to_youtube (url : Url) : Bool :=
  match url.host with
  | some (Host.domain domain) => YOUTUBE_DOMAINS.contains domain
  | _ => false

def url_has_si (url : Url) : Bool :=
  match url.query with
  | none => false
  | some query =>
    "si=".toList.isPrefixOf query.toList || hasSubstr query.toList "&si=".toList

def remove_si_from_url (url : Url) : Url :=
  let query_pairs :=
    (parseQueryPairs ((url.query.getD "").toList)).filter
      (fun kv => kv.1 != "si".toList)
  match query_pairs with
  | [] => { url with query := none }
  | _ =>
    { url with
      query := some (String.mk
        (encodeQueryInput (isSpecialScheme url.scheme) (buildQuery query_pairs))) }

def url_without_si (url : Url) : Option Url :=
  if !url_belongs_to_youtube url || !url_has_si url then none
  else some (remove_si_from_url url)

end RemoveSi

/-! ### src/bot/remove_si.rs (the stripper functions are duplicated there) -/

namespace BotRemoveSi

def YOUTUBE_DOMAINS : List String := ["youtube.com", "www.youtube.com", "youtu.be"]

def url_belongs_to_youtube (url : Url) : Bool :=
  match url.host with
  | some (Host.domain domain) => YOUTUBE_DOMAINS.contains domain
  | _ => false

def url_has_si (url : Url) : Bool :=
  match url.query with
  | none => false
  | some query =>
    "si=".toList.isPrefixOf query.toList || hasSubstr query.toList "&si=".toList

def remove_si_from_url (url : Url) : Url :=
  let query_pairs :=
    (parseQueryPairs ((url.query.getD "").toList)).filter
      (fun kv => kv.1 != "si".toList)
  match query_pairs with
  | [] => { url with query := none }
  | _ =>
    { url with
      query := some (String.mk
        (encodeQueryInput (isSpecialScheme url.scheme) (buildQuery query_pairs))) }

def url_without_si (url : Url) : Option Url :=
  if !url_belongs_to_youtube url || !url_has_si url then none
  else some (remove_si_from_url url)

end BotRemoveSi

/-! ### Model of `Url::parse` (third-party `url` crate)

Simplified to the behaviour the repository depends on: a string with no
scheme prefix fails with `RelativeUrlWithoutBase` (which `try_parse_url`
turns into a retry with `https://` prepended); a scheme followed by an
authority yields a parsed `Url` with lower-cased scheme and domain.
Userinfo, ports and IP-address hosts are not modelled. -/

inductive ParseError where
  | relativeUrlWithoutBase
  | emptyHost
deriving DecidableEq, Repr

def isSchemeChar (c : Char) : Bool :=
  c.isAlphanum || c = '+' || c = '-' || c = '.'

/-- Scheme recognition of the `url` crate parser: an ASCII alpha char, then
scheme chars, then a colon.  Returns the scheme and the remainder after the
colon. -/
def takeScheme : List Char → Option (List Char × List Char)
  | [] => none
  | c :: rest =>
    if c.isAlpha then
      let body := rest.takeWhile isSchemeChar
      match rest.drop body.length with
      | ':' :: r => some (c :: body, r)
      | _ => none
    else none

def notPathEnd (c : Char) : Bool := !(c = '?' || c = '#')

def parseUrl (s : String) : Except ParseError Url :=
  match takeScheme s.toList with
  | none => Except.error ParseError.relativeUrlWithoutBase
  | some (sch, rest) =>
    let scheme := String.mk (sch.map Char.toLower)
    if "//".toList.isPrefixOf rest then
      let afterSlashes := rest.drop 2
      let auth := afterSlashes.takeWhile (fun c => !(c = '/' || c = '?' || c = '#'))
      if auth.isEmpty then Except.error ParseError.emptyHost
      else
        let tail := afterSlashes.drop auth.length
        let pathPart := tail.takeWhile notPathEnd
        let afterPath := tail.drop pathPart.length
        let queryPart :=
          match afterPath with
          | '?' :: r => some (String.mk (r.takeWhile (fun c => !(c = '#'))))
          | _ => none
        let fragmentPart :=
          match afterPath.dropWhile (fun c => !(c = '#')) with
          | '#' :: r => some (String.mk r)
          | _ => none
        Except.ok
          { scheme := scheme
            host := some (Host.domain (String.mk (auth.map Char.toLower)))
            path := if pathPart.isEmpty then "/" else String.mk pathPart
            query := queryPart
            fragment := fragmentPart }
    else
      -- no authority (e.g. mailto:-style): host-less URL
      let pathPart := rest.takeWhile notPathEnd
      let afterPath := rest.drop pathPart.length
      let queryPart :=
        match afterPath with
        | '?' :: r => some (String.mk (r.takeWhile (fun c => !(c = '#'))))
        | _ => none
      let fragmentPart :=
        match afterPath.dropWhile (fun c => !(c = '#')) with
        | '#' :: r => some (String.mk r)
        | _ => none
      Except.ok
        { scheme := scheme
          host := none
          path := String.mk pathPart
          query := queryPart
          fragment := fragmentPart }

/-! ### Data model: Telegram messages (from the `teloxide` types used)

A message carries optional text, an optional entity list, a chat id, a
message id, and an optional replied-to message whose author may be absent.
`teloxide`'s `Message` always contains a chat, so `GetChatId::chat_id` on a
message always returns `Some`; the model therefore stores `chatId` directly. -/

structure User where
  id : Nat
deriving DecidableEq, Repr

structure Me where
  id : Nat
deriving DecidableEq, Repr

structure RepliedMessage where
  fromUser : Option User
deriving DecidableEq, Repr

inductive EntityKind where
  | url
  | textLink (url : Url)
  | other
deriving DecidableEq, Repr

structure MessageEntity where
  kind : EntityKind
  offset : Nat
  length : Nat
deriving DecidableEq, Repr

structure Message where
  text : Option String
  entities : Option (List MessageEntity)
  chatId : Int
  msgId : Int
  replyToMessage : Option RepliedMessage
deriving DecidableEq, Repr

/-- Model of `str::get (offset..offset+length)`: `Some` slice when in
bounds, `None` otherwise (char boundaries coincide with byte boundaries in
the byte-granular string model). -/
def sliceText (text : String) (off len : Nat) : Option String :=
  if off + len ≤ text.toList.length then
    some (String.mk ((text.toList.drop off).take len))
  else none

/-! ### src/bot/remove_si.rs: extractor, sender, handler
(src/bot.rs lines 50-148 duplicates these functions verbatim). -/

namespace BotRemoveSi

/-- Model of `try_parse_url`: parse, retrying with `https://` prepended when parsing
failed only because the string had no scheme; on final failure log and
return `None`. -/
def try_parse_url (s : String) : Option Url :=
  (match parseUrl s with
   | Except.ok url => Except.ok url
   | Except.error e =>
     match e with
     | ParseError.relativeUrlWithoutBase => parseUrl ("https://" ++ s)
     | other_error => Except.error other_error).toOption

/-- The per-entity step of `message_url_iterator`: slice-and-parse for plain
URL entities, direct emission for text links, skip for everything else. -/
def entity_url (text : String) (entity : MessageEntity) : Option Url :=
  match entity.kind with
  | EntityKind.url => (sliceText text entity.offset entity.length).bind try_parse_url
  | EntityKind.textLink url => some url
  | EntityKind.other => none

/-- Model of `message_url_iterator`: `None` text or entities flattens to the empty
sequence; otherwise filter-map the entities in order. -/
def message_url_iterator (m : Message) : List Url :=
  (match m.text, m.entities with
   | some text, some entities => some (entities.filterMap (entity_url text))
   | _, _ => none).getD []

/-- Outcome of one `bot.send_message(..).reply_to(..)` attempt, as
classified by the `match` in `send_message_retrying`. -/
inductive SendOutcome where
  | ok
  | network
  | io
  | retryAfter (seconds : Nat)
  | other
deriving DecidableEq, Repr

def RETRY_LIMIT : Nat := 20

/-- The retry loop of `send_message_retrying`.  `outcomes i` is the result
of the `i`-th send attempt.  Returns the function result together with the
number of attempts performed.  Note the loop `break`s on `Ok` without
clearing `last_err`, and the final expression is
`last_err.map(Err).unwrap_or(Ok(()))`. -/
def send_message_retrying_aux (outcomes : Nat → SendOutcome) :
    Nat → Nat → Option SendOutcome → Except SendOutcome Unit × Nat
  | attempt, 0, last_err =>
    ((match last_err with
      | some e => Except.error e
      | none => Except.ok ()), attempt)
  | attempt, remaining + 1, last_err =>
    match outcomes attempt with
    | SendOutcome.ok =>
      ((match last_err with
        | some e => Except.error e
        | none => Except.ok ()), attempt + 1)
    | SendOutcome.network =>
      send_message_retrying_aux outcomes (attempt + 1) remaining (some SendOutcome.network)
    | SendOutcome.io =>
      send_message_retrying_aux outcomes (attempt + 1) remaining (some SendOutcome.io)
    | SendOutcome.retryAfter secs =>
      send_message_retrying_aux outcomes (attempt + 1) remaining (some (SendOutcome.retryAfter secs))
    | SendOutcome.other => (Except.error SendOutcome.other, attempt + 1)

def send_message_retrying (outcomes : Nat → SendOutcome) :
    Except SendOutcome Unit × Nat :=
  send_message_retrying_aux outcomes 0 RETRY_LIMIT none

/-- The `remove_si` handler: extract URLs, strip each, return silently when
nothing survives, otherwise compose the reply (singular or plural header,
one URL per line, built by the push loop) and send it with retry.  Returns
the handler result together with the composed reply text passed to the
sender (`none` when no send occurs). -/
def remove_si (m : Message) (outcomes : Nat → SendOutcome) :
    Except SendOutcome Unit × Option String :=
  match (message_url_iterator m).filterMap url_without_si with
  | [] => (Except.ok (), none)
  | first :: rest =>
    let header :=
      if rest.isEmpty then "The link without tracking:\n"
      else "The links without tracking:\n"
    let response :=
      (first :: rest).foldl (fun acc url => acc ++ serializeUrl url ++ "\n") header
    ((send_message_retrying outcomes).1, some response)

end BotRemoveSi

/-! ### src/bot/thank_react.rs -/

namespace ThankReact

/-- Model of `thank_react_filter`: true exactly when the message replies to a prior
message whose author is present and equals the bot identity. -/
def thank_react_filter (me : Me) (message : Message) : Bool :=
  match message.replyToMessage with
  | some origin =>
    match origin.fromUser with
    | some from_user => from_user.id == me.id
    | none => false
  | none => false

end ThankReact

/-! ## Helper lemmas -/

theorem string_nil_append (s : String) : "" ++ s = s := by
  cases s
  rfl

theorem string_append_nil (s : String) : s ++ "" = s := by
  cases s with
  | mk l => exact congrArg String.mk (List.append_nil l)

theorem string_append_assoc (a b c : String) : a ++ b ++ c = a ++ (b ++ c) := by
  cases a with
  | mk la =>
    cases b with
    | mk lb =>
      cases c with
      | mk lc => exact congrArg String.mk (List.append_assoc la lb lc)

theorem string_foldl_append (xs : List String) (a b : String) :
    xs.foldl (· ++ ·) (a ++ b) = a ++ xs.foldl (· ++ ·) b := by
  induction xs generalizing b with
  | nil => rfl
  | cons x t ih => simp only [List.foldl, string_append_assoc, ih]

theorem string_join_cons (x : String) (xs : List String) :
    String.join (x :: xs) = x ++ String.join xs := by
  show (x :: xs).foldl (· ++ ·) "" = x ++ xs.foldl (· ++ ·) ""
  simp only [List.foldl]
  rw [string_nil_append, ← string_append_nil x, string_foldl_append,
    string_append_nil]

/-- The reply-building push loop equals the header followed by the joined
URL lines. -/
theorem foldl_urls_eq_join (f : Url → String) (l : List Url) (acc : String) :
    l.foldl (fun a u => a ++ f u ++ "\n") acc
      = acc ++ String.join (l.map fun u => f u ++ "\n") := by
  induction l generalizing acc with
  | nil => exact (string_append_nil acc).symm
  | cons u t ih =>
    rw [List.foldl, ih, List.map, string_join_cons]
    simp only [string_append_assoc]

theorem splitOnChar_ne_nil (sep : Char) (l : List Char) :
    splitOnChar sep l ≠ [] := by
  induction l with
  | nil => simp [splitOnChar]
  | cons c rest ih =>
    rw [splitOnChar]
    split <;> simp

theorem mem_splitOnChar_subset {sep : Char} {l p : List Char}
    (hp : p ∈ splitOnChar sep l) : ∀ c ∈ p, c ∈ l := by
  induction l generalizing p with
  | nil =>
    simp [splitOnChar] at hp
    subst hp
    intro c hc
    exact absurd hc (List.not_mem_nil c)
  | cons a rest ih =>
    rw [splitOnChar] at hp
    split at hp
    · rcases List.mem_cons.mp hp with h | h
      · subst h
        intro c hc
        exact absurd hc (List.not_mem_nil c)
      · intro c hc
        exact List.mem_cons_of_mem a (ih h c hc)
    · rcases List.mem_cons.mp hp with h | h
      · subst h
        intro c hc
        rcases List.mem_cons.mp hc with h | h
        · exact h ▸ List.mem_cons_self a rest
        · cases hr : splitOnChar sep rest with
          | nil => exact absurd hr (splitOnChar_ne_nil sep rest)
          | cons q t =>
            rw [hr] at h
            exact List.mem_cons_of_mem a
              (ih (hr ▸ List.mem_cons_self q t) c (by simpa using h))
      · cases hr : splitOnChar sep rest with
        | nil => exact absurd hr (splitOnChar_ne_nil sep rest)
        | cons q t =>
          rw [hr] at h
          intro c hc
          exact List.mem_cons_of_mem a
            (ih (hr ▸ List.mem_cons_of_mem q h) c hc)

theorem sep_not_mem_splitOnChar {sep : Char} {l p : List Char}
    (hp : p ∈ splitOnChar sep l) : sep ∉ p := by
  induction l generalizing p with
  | nil =>
    simp [splitOnChar] at hp
    subst hp
    exact List.not_mem_nil sep
  | cons a rest ih =>
    rw [splitOnChar] at hp
    split at hp
    · next ha =>
      rcases List.mem_cons.mp hp with h | h
      · subst h
        exact List.not_mem_nil sep
      · exact ih h
    · next ha =>
      rcases List.mem_cons.mp hp with h | h
      · subst h
        intro hc
        rcases List.mem_cons.mp hc with h | h
        · exact ha h.symm
        · cases hr : splitOnChar sep rest with
          | nil => exact absurd hr (splitOnChar_ne_nil sep rest)
          | cons q t =>
            rw [hr] at h
            exact ih (hr ▸ List.mem_cons_self q t) (by simpa using h)
      · cases hr : splitOnChar sep rest with
        | nil => exact absurd hr (splitOnChar_ne_nil sep rest)
        | cons q t =>
          rw [hr] at h
          exact ih (hr ▸ List.mem_cons_of_mem q h)

theorem eq_not_mem_splitKV_fst (p : List Char) : '=' ∉ (splitKV p).1 := by
  induction p with
  | nil => exact List.not_mem_nil _
  | cons c rest ih =>
    rw [splitKV]
    split
    · exact List.not_mem_nil _
    · next hc =>
      intro hmem
      rcases List.mem_cons.mp hmem with h | h
      · exact hc h.symm
      · exact ih h

theorem splitKV_fst_subset (p : List Char) : ∀ c ∈ (splitKV p).1, c ∈ p := by
  induction p with
  | nil => intro c hc; exact absurd hc (List.not_mem_nil c)
  | cons a rest ih =>
    rw [splitKV]
    split
    · intro c hc
      exact absurd hc (List.not_mem_nil c)
    · intro c hc
      rcases List.mem_cons.mp hc with h | h
      · exact h ▸ List.mem_cons_self a rest
      · exact List.mem_cons_of_mem a (ih c h)

theorem splitKV_snd_subset (p : List Char) : ∀ c ∈ (splitKV p).2, c ∈ p := by
  induction p with
  | nil => intro c hc; exact absurd hc (List.not_mem_nil c)
  | cons a rest ih =>
    rw [splitKV]
    split
    · intro c hc
      exact List.mem_cons_of_mem a hc
    · intro c hc
      exact List.mem_cons_of_mem a (ih c hc)

theorem splitKV_reassemble {p : List Char} (hp : '=' ∈ p) :
    (splitKV p).1 ++ '=' :: (splitKV p).2 = p := by
  induction p with
  | nil => exact absurd hp (List.not_mem_nil _)
  | cons a rest ih =>
    rw [splitKV]
    split
    · next ha =>
      subst ha
      rfl
    · next ha =>
      have hrest : '=' ∈ rest := by
        rcases List.mem_cons.mp hp with h | h
        · exact absurd h.symm ha
        · exact h
      simpa using ih hrest

theorem percentDecodeFuel_eq_self :
    ∀ (n : Nat) (l : List Char), '%' ∉ l → percentDecodeFuel n l = l := by
  intro n
  induction n with
  | zero =>
    intro l _
    cases l with
    | nil => rfl
    | cons c rest => rfl
  | succ n ih =>
    intro l h
    cases l with
    | nil => rfl
    | cons c rest =>
      have hc : c ≠ '%' := fun hcc => h (hcc ▸ List.mem_cons_self c rest)
      have hrest : '%' ∉ rest := fun hr => h (List.mem_cons_of_mem c hr)
      show (if c = '%' then _ else c :: percentDecodeFuel n rest) = c :: rest
      rw [if_neg hc, ih rest hrest]

theorem percentDecode_eq_self {l : List Char} (h : '%' ∉ l) :
    percentDecode l = l :=
  percentDecodeFuel_eq_self l.length l h

theorem decodePart_eq_self {l : List Char} (h1 : '%' ∉ l) (h2 : '+' ∉ l) :
    decodePart l = l := by
  rw [decodePart]
  have hmap : (l.map fun c => if c = '+' then ' ' else c) = l := by
    induction l with
    | nil => rfl
    | cons c rest ih =>
      have hc : c ≠ '+' := fun hc => h2 (hc ▸ List.mem_cons_self c rest)
      rw [List.map_cons, if_neg hc,
        ih (fun hm => h1 (List.mem_cons_of_mem c hm))
           (fun hm => h2 (List.mem_cons_of_mem c hm))]
  rw [hmap]
  exact percentDecode_eq_self h1

theorem plainQueryChar_facts {c : Char} (h : plainQueryChar c = true) :
    (∀ sp, queryEncodesChar sp c = false) ∧ isTabOrNewline c = false ∧
    c ≠ '%' ∧ c ≠ '+' := by
  simp only [plainQueryChar, Bool.and_eq_true, bne_iff_ne, ne_eq,
    decide_eq_true_eq] at h
  obtain ⟨⟨⟨⟨⟨⟨⟨⟨hlo, hhi⟩, h22⟩, h23⟩, h3c⟩, h3e⟩, h27⟩, h25⟩, h2b⟩ := h
  refine ⟨?_, ?_, ?_, ?_⟩
  · intro sp
    simp only [queryEncodesChar, Bool.or_eq_false_iff]
    refine ⟨⟨⟨⟨⟨⟨⟨?_, ?_⟩, ?_⟩, ?_⟩, ?_⟩, ?_⟩, ?_⟩, ?_⟩ <;>
      simp only [decide_eq_false_iff_not, beq_eq_false_iff_ne, ne_eq,
        Bool.and_eq_false_iff] <;> omega
  · simp only [isTabOrNewline, Bool.or_eq_false_iff, beq_eq_false_iff_ne, ne_eq]
    omega
  · intro hc
    subst hc
    exact h25 rfl
  · intro hc
    subst hc
    exact h2b rfl

theorem map_congr_mem {α β : Type} {f g : α → β} :
    ∀ {l : List α}, (∀ a ∈ l, f a = g a) → l.map f = l.map g := by
  intro l
  induction l with
  | nil => intro _; rfl
  | cons a t ih =>
    intro h
    rw [List.map_cons, List.map_cons, h a (List.mem_cons_self a t),
      ih (fun b hb => h b (List.mem_cons_of_mem a hb))]

theorem filter_eq_self_of_forall {α : Type} (pr : α → Bool) :
    ∀ (l : List α), (∀ a ∈ l, pr a = true) → l.filter pr = l := by
  intro l
  induction l with
  | nil => intro _; rfl
  | cons a t ih =>
    intro h
    rw [List.filter_cons, if_pos (h a (List.mem_cons_self a t)),
      ih (fun b hb => h b (List.mem_cons_of_mem a hb))]

theorem filter_after_map {α β : Type} (f : α → β) (pr : β → Bool) :
    ∀ (l : List α), (l.map f).filter pr = (l.filter fun a => pr (f a)).map f := by
  intro l
  induction l with
  | nil => rfl
  | cons a t ih =>
    rw [List.map_cons, List.filter_cons, List.filter_cons]
    cases h : pr (f a) with
    | true => rw [if_pos rfl, if_pos rfl, List.map_cons, ih]
    | false => rw [if_neg (by simp), if_neg (by simp), ih]

theorem encodeQueryInput_eq_self {sp : Bool} {l : List Char}
    (h : ∀ c ∈ l, plainQueryChar c = true) :
    encodeQueryInput sp l = l := by
  rw [encodeQueryInput]
  have hfil : l.filter (fun c => !isTabOrNewline c) = l :=
    filter_eq_self_of_forall _ l
      (fun c hc => by rw [(plainQueryChar_facts (h c hc)).2.1]; rfl)
  rw [hfil]
  induction l with
  | nil => rfl
  | cons c rest ih =>
    rw [List.map_cons, List.flatten,
      if_neg (by rw [(plainQueryChar_facts (h c (List.mem_cons_self c rest))).1 sp]; simp),
      ih (fun b hb => h b (List.mem_cons_of_mem c hb))
        (filter_eq_self_of_forall _ rest
          (fun b hb => by
            rw [(plainQueryChar_facts (h b (List.mem_cons_of_mem c hb))).2.1]; rfl))]
    rfl

theorem mem_intercalateChar {sep : Char} :
    ∀ {ps : List (List Char)} {c : Char}, c ∈ intercalateChar sep ps →
      c = sep ∨ ∃ p ∈ ps, c ∈ p := by
  intro ps
  induction ps with
  | nil =>
    intro c hc
    exact absurd hc (List.not_mem_nil c)
  | cons p rest ih =>
    intro c hc
    cases rest with
    | nil =>
      rw [intercalateChar] at hc
      exact Or.inr ⟨p, List.mem_cons_self p [], hc⟩
    | cons q t =>
      rw [intercalateChar] at hc
      rcases List.mem_append.mp hc with h | h
      · exact Or.inr ⟨p, List.mem_cons_self p _, h⟩
      · rcases List.mem_cons.mp h with h | h
        · exact Or.inl h
        · rcases ih h with h | ⟨r, hr, hcr⟩
          · exact Or.inl h
          · exact Or.inr ⟨r, List.mem_cons_of_mem p hr, hcr⟩

theorem intercalateChar_cons_eq_ampJoin (p : List Char) :
    ∀ (ps : List (List Char)), intercalateChar '&' (p :: ps) = p ++ ampJoin ps := by
  intro ps
  induction ps generalizing p with
  | nil => exact (List.append_nil p).symm
  | cons q t ih =>
    rw [intercalateChar, ih q]
    rfl

theorem append_isEmpty_false {acc z : List Char} (h : acc.isEmpty = false) :
    (acc ++ z).isEmpty = false := by
  cases acc with
  | nil => simp [List.isEmpty] at h
  | cons a t => rfl

theorem buildQuery_foldl_invariant :
    ∀ (l : List (List Char × List Char)) (acc : List Char),
      acc.isEmpty = false →
      l.foldl (fun acc kv =>
          (if acc.isEmpty then acc else acc ++ ['&']) ++ kv.1 ++ '=' :: kv.2) acc
        = acc ++ ampJoin (l.map fun kv => kv.1 ++ '=' :: kv.2) := by
  intro l
  induction l with
  | nil =>
    intro acc hacc
    exact (List.append_nil acc).symm
  | cons kv t ih =>
    intro acc hacc
    rw [List.foldl, if_neg (by rw [hacc]; simp)]
    rw [ih _ (append_isEmpty_false (append_isEmpty_false (append_isEmpty_false hacc)))]
    simp only [List.map_cons, ampJoin, List.foldr, List.append_assoc,
      List.cons_append, List.nil_append]

theorem buildQuery_eq_intercalate (pairs : List (List Char × List Char)) :
    buildQuery pairs
      = intercalateChar '&' (pairs.map fun kv => kv.1 ++ '=' :: kv.2) := by
  rw [buildQuery]
  cases pairs with
  | nil => rfl
  | cons kv rest =>
    rw [List.foldl, List.map_cons, intercalateChar_cons_eq_ampJoin]
    have hne : (kv.1 ++ '=' :: kv.2).isEmpty = false := by
      cases h : kv.1 with
      | nil => rfl
      | cons a t => rfl
    exact buildQuery_foldl_invariant rest _ hne

theorem parseQueryPairs_plain {q : List Char}
    (h : ∀ c ∈ q, plainQueryChar c = true) :
    parseQueryPairs q
      = ((splitOnChar '&' q).filter (fun p => !p.isEmpty)).map
          (fun p => ((splitKV p).1, (splitKV p).2)) := by
  rw [parseQueryPairs]
  apply map_congr_mem
  intro p hp
  have hpq : ∀ c ∈ p, c ∈ q :=
    mem_splitOnChar_subset (List.mem_filter.mp hp).1
  have hk1 : '%' ∉ (splitKV p).1 :=
    fun hm => (plainQueryChar_facts (h _ (hpq _ (splitKV_fst_subset p _ hm)))).2.2.1 rfl
  have hk2 : '+' ∉ (splitKV p).1 :=
    fun hm => (plainQueryChar_facts (h _ (hpq _ (splitKV_fst_subset p _ hm)))).2.2.2 rfl
  have hv1 : '%' ∉ (splitKV p).2 :=
    fun hm => (plainQueryChar_facts (h _ (hpq _ (splitKV_snd_subset p _ hm)))).2.2.1 rfl
  have hv2 : '+' ∉ (splitKV p).2 :=
    fun hm => (plainQueryChar_facts (h _ (hpq _ (splitKV_snd_subset p _ hm)))).2.2.2 rfl
  rw [decodePart_eq_self hk1 hk2, decodePart_eq_self hv1 hv2]

theorem reassembled_si_start_false {k : List Char} (v : List Char)
    (hk : '=' ∉ k) (hne : k ≠ ['s', 'i']) (t : List Char) :
    (['s', 'i', '=']).isPrefixOf ((k ++ '=' :: v) ++ t) = false := by
  match k with
  | [] =>
    simp only [List.nil_append, List.cons_append, List.isPrefixOf]
    rw [show ('s' == '=') = false from rfl, Bool.false_and]
  | [a] =>
    simp only [List.cons_append, List.nil_append, List.isPrefixOf]
    rw [show ('i' == '=') = false from rfl, Bool.false_and, Bool.and_false]
  | a :: b :: k' =>
    cases k' with
    | nil =>
      simp only [List.cons_append, List.nil_append, List.isPrefixOf]
      by_cases ha : a = 's'
      · by_cases hb : b = 'i'
        · exact absurd (by rw [ha, hb]) hne
        · rw [show ('i' == b) = false from
            beq_eq_false_iff_ne.mpr (fun he => hb he.symm), Bool.false_and,
            Bool.and_false]
      · rw [show ('s' == a) = false from
          beq_eq_false_iff_ne.mpr (fun he => ha he.symm), Bool.false_and]
    | cons c k'' =>
      have hc : c ≠ '=' := fun he => hk (by
        rw [he] at *
        exact List.mem_cons_of_mem a (List.mem_cons_of_mem b (List.mem_cons_self '=' k'')))
      simp only [List.cons_append, List.nil_append, List.isPrefixOf]
      rw [show ('=' == c) = false from beq_eq_false_iff_ne.mpr (fun he => hc he.symm),
        Bool.false_and, Bool.and_false, Bool.and_false]

theorem hasInfix_no_amp {p : List Char} (h : '&' ∉ p) (n : List Char) :
    hasSubstr p ('&' :: n) = false := by
  induction p with
  | nil => rfl
  | cons c t ih =>
    rw [hasSubstr]
    have hc : ('&' == c) = false :=
      beq_eq_false_iff_ne.mpr (fun he => h (List.mem_cons.mpr (Or.inl he)))
    simp only [List.isPrefixOf, hc, Bool.false_and, Bool.false_or]
    exact ih (fun hm => h (List.mem_cons_of_mem c hm))

theorem hasInfix_append_amp {p s' : List Char}
    (hp : '&' ∉ p)
    (h1 : (['s', 'i', '=']).isPrefixOf s' = false)
    (h2 : hasSubstr s' ['&', 's', 'i', '='] = false) :
    hasSubstr (p ++ '&' :: s') ['&', 's', 'i', '='] = false := by
  induction p with
  | nil =>
    rw [List.nil_append, hasSubstr]
    simp only [List.isPrefixOf]
    rw [show ('&' == '&') = true from rfl, Bool.true_and, h1, h2]
    rfl
  | cons c t ih =>
    rw [List.cons_append, hasSubstr]
    have hc : ('&' == c) = false :=
      beq_eq_false_iff_ne.mpr (fun he => hp (List.mem_cons.mpr (Or.inl he)))
    simp only [List.isPrefixOf, hc, Bool.false_and, Bool.false_or]
    exact ih (fun hm => hp (List.mem_cons_of_mem c hm))

theorem clean_intercalate :
    ∀ (ps : List (List Char)),
      (∀ p ∈ ps, '&' ∉ p ∧
        ∀ t, (['s', 'i', '=']).isPrefixOf (p ++ t) = false) →
      (['s', 'i', '=']).isPrefixOf (intercalateChar '&' ps) = false ∧
      hasSubstr (intercalateChar '&' ps) ['&', 's', 'i', '='] = false := by
  intro ps
  induction ps with
  | nil => intro _; exact ⟨rfl, rfl⟩
  | cons p rest ih =>
    intro h
    have hp := h p (List.mem_cons_self p rest)
    cases rest with
    | nil =>
      rw [intercalateChar]
      constructor
      · have hpre := hp.2 []
        rwa [List.append_nil] at hpre
      · exact hasInfix_no_amp hp.1 _
    | cons w t =>
      rw [intercalateChar]
      have hrest := ih (fun r hr => h r (List.mem_cons_of_mem p hr))
      exact ⟨hp.2 _, hasInfix_append_amp hp.1 hrest.1 hrest.2⟩

/-- Evaluation of `remove_si_from_url` on a URL whose query consists of
plain chars only: the decoded pairs are the raw `=`-splits of the nonempty
`&`-pieces, and re-encoding is the identity, so the new query is the
`&`-join of the reassembled retained pieces. -/
theorem remove_si_from_url_plain (u : Url) (q : String)
    (hq : u.query = some q)
    (hplain : ∀ c ∈ q.toList, plainQueryChar c = true) :
    RemoveSi.remove_si_from_url u =
      match ((splitOnChar '&' q.toList).filter (fun p => !p.isEmpty)).filter
          (fun p => (splitKV p).1 != "si".toList) with
      | [] => { u with query := none }
      | retained =>
        { u with
          query := some (String.mk (intercalateChar '&'
            (retained.map (fun p => (splitKV p).1 ++ '=' :: (splitKV p).2)))) } := by
  have hgetd : (u.query.getD "") = q := by rw [hq]; rfl
  have hs1 := parseQueryPairs_plain (q := q.toList) hplain
  rw [RemoveSi.remove_si_from_url]
  rw [hgetd, hs1, filter_after_map]
  have hpred :
      ((splitOnChar '&' q.toList).filter (fun p => !p.isEmpty)).filter
          (fun p => ((fun p => ((splitKV p).1, (splitKV p).2)) p).1 != "si".toList)
        = ((splitOnChar '&' q.toList).filter (fun p => !p.isEmpty)).filter
          (fun p => (splitKV p).1 != "si".toList) := rfl
  rw [hpred]
  cases hr : ((splitOnChar '&' q.toList).filter (fun p => !p.isEmpty)).filter
      (fun p => (splitKV p).1 != "si".toList) with
  | nil => rfl
  | cons r rs =>
    have hmem : ∀ p ∈ r :: rs, ∀ c ∈ p, plainQueryChar c = true := by
      intro p hp c hc
      have hp1 : p ∈ (splitOnChar '&' q.toList).filter (fun p => !p.isEmpty) :=
        (List.mem_filter.mp (hr ▸ hp)).1
      exact hplain c (mem_splitOnChar_subset (List.mem_filter.mp hp1).1 c hc)
    have henc :
        encodeQueryInput (isSpecialScheme u.scheme)
            (buildQuery ((r :: rs).map fun p => ((splitKV p).1, (splitKV p).2)))
          = intercalateChar '&'
              ((r :: rs).map (fun p => (splitKV p).1 ++ '=' :: (splitKV p).2)) := by
      rw [buildQuery_eq_intercalate, List.map_map]
      have hcomp :
          ((fun kv : List Char × List Char => kv.1 ++ '=' :: kv.2) ∘
            (fun p => ((splitKV p).1, (splitKV p).2)))
          = fun p => (splitKV p).1 ++ '=' :: (splitKV p).2 := rfl
      rw [hcomp]
      apply encodeQueryInput_eq_self
      intro c hc
      rcases mem_intercalateChar hc with hamp | ⟨p', hp', hcp⟩
      · subst hamp; decide
      · obtain ⟨p, hpmem, hpe⟩ := List.mem_map.mp hp'
        subst hpe
        rcases List.mem_append.mp hcp with hck | hcv
        · exact hmem p hpmem c (splitKV_fst_subset p c hck)
        · rcases List.mem_cons.mp hcv with hce | hcv'
          · subst hce; decide
          · exact hmem p hpmem c (splitKV_snd_subset p c hcv')
    rw [henc]
    simp only [List.map_cons]

/-! ## Claim theorems -/

/-- C1: the claim states that whenever some attempt within the 20-attempt
bound succeeds after only retryable failures, `send_message_retrying`
returns `Ok` and performs no further attempts.  The code stops retrying on
success, but `last_err` is not cleared before the `break`, and the final
`last_err.map(Err).unwrap_or(Ok(()))` then reports the error of the earlier
retryable failure.  This theorem evaluates the embedded loop: an immediate
success returns `Ok` after one attempt; a network failure followed by a
success stops after two attempts (the second being successful) yet returns
`Err(Network)`. -/
theorem c1_send_retrying_eval :
    BotRemoveSi.send_message_retrying (fun _ => BotRemoveSi.SendOutcome.ok)
      = (Except.ok (), 1) ∧
    (fun i => if i = 0 then BotRemoveSi.SendOutcome.network else BotRemoveSi.SendOutcome.ok) 1
      = BotRemoveSi.SendOutcome.ok ∧
    BotRemoveSi.send_message_retrying
        (fun i => if i = 0 then BotRemoveSi.SendOutcome.network else BotRemoveSi.SendOutcome.ok)
      = (Except.error BotRemoveSi.SendOutcome.network, 2) :=
  ⟨rfl, rfl, rfl⟩

/-- C2 counterexample: the claim demands that each retained pair keep the
key=value encoding exactly as it appeared in the input query.  For
`https://www.youtube.com/watch?v=a+b&si=x` the only non-si pair appears as
`v=a+b`, but the code form-urlencoded-decodes the pair (`+` to space) and
re-encodes it via `set_query`, producing the query `v=a%20b`. -/
theorem c2_counterexample :
    RemoveSi.url_without_si
        { scheme := "https", host := some (Host.domain "www.youtube.com"),
          path := "/watch", query := some "v=a+b&si=x", fragment := none }
      = some { scheme := "https", host := some (Host.domain "www.youtube.com"),
               path := "/watch", query := some "v=a%20b", fragment := none } ∧
    ("v=a%20b" : String) ≠ "v=a+b" := by
  exact ⟨by decide, by decide⟩

/-- C2 (amended): for every recognized-domain URL whose query contains the
tracking key (heuristic check) together with other parameters, the output
query consists of exactly the non-si pairs in their original order;
the exact key=value encoding of each retained pair is preserved whenever
the query consists of plain chars (no percent-escapes, no `+`) and every
`&`-separated piece is nonempty and contains `=`.  In general the code
decodes and re-encodes pairs, which can change the byte-level encoding
(see the counterexample). -/
theorem c2_plain_pairs_preserved (u : Url) (q : String)
    (hq : u.query = some q)
    (hb : RemoveSi.url_belongs_to_youtube u = true)
    (hs : RemoveSi.url_has_si u = true)
    (hplain : ∀ c ∈ q.toList, plainQueryChar c = true)
    (hpieces : ∀ p ∈ splitOnChar '&' q.toList, p ≠ [] ∧ '=' ∈ p)
    (hkeep : (splitOnChar '&' q.toList).filter
        (fun p => (splitKV p).1 != "si".toList) ≠ []) :
    RemoveSi.url_without_si u
      = some { u with query := some (String.mk (intercalateChar '&'
          ((splitOnChar '&' q.toList).filter
            (fun p => (splitKV p).1 != "si".toList)))) } ∧
    BotRemoveSi.url_without_si u
      = some { u with query := some (String.mk (intercalateChar '&'
          ((splitOnChar '&' q.toList).filter
            (fun p => (splitKV p).1 != "si".toList)))) } := by
  have hfil : (splitOnChar '&' q.toList).filter (fun p => !p.isEmpty)
      = splitOnChar '&' q.toList := by
    apply filter_eq_self_of_forall
    intro p hp
    cases hpc : p with
    | nil => exact absurd hpc (hpieces p hp).1
    | cons a t => rfl
  have key : RemoveSi.url_without_si u
      = some { u with query := some (String.mk (intercalateChar '&'
          ((splitOnChar '&' q.toList).filter
            (fun p => (splitKV p).1 != "si".toList)))) } := by
    rw [RemoveSi.url_without_si, if_neg (by rw [hb, hs]; simp)]
    rw [remove_si_from_url_plain u q hq hplain, hfil]
    cases hret : (splitOnChar '&' q.toList).filter
        (fun p => (splitKV p).1 != "si".toList) with
    | nil => exact absurd hret hkeep
    | cons r rs =>
      have hre : (r :: rs).map (fun p => (splitKV p).1 ++ '=' :: (splitKV p).2)
          = r :: rs := by
        have hone : ∀ p ∈ r :: rs, (splitKV p).1 ++ '=' :: (splitKV p).2 = p := by
          intro p hp
          have hmem : p ∈ splitOnChar '&' q.toList :=
            List.mem_of_mem_filter (hret ▸ hp)
          exact splitKV_reassemble (hpieces p hmem).2
        calc (r :: rs).map (fun p => (splitKV p).1 ++ '=' :: (splitKV p).2)
            = (r :: rs).map id := map_congr_mem (fun p hp => hone p hp)
          _ = r :: rs := List.map_id _
      simp only [hre]
  exact ⟨key, key⟩

/-- Witness for C2 at the repository test vector
`https://youtu.be/FiwMTquj-rQ?si=KuczOyCr1s5_Ou0r&t=173`, whose stripped
query is exactly the retained pair `t=173`. -/
theorem c2_witness :
    RemoveSi.url_without_si
        { scheme := "https", host := some (Host.domain "youtu.be"),
          path := "/FiwMTquj-rQ", query := some "si=KuczOyCr1s5_Ou0r&t=173",
          fragment := none }
      = some { scheme := "https", host := some (Host.domain "youtu.be"),
               path := "/FiwMTquj-rQ", query := some "t=173", fragment := none } :=
  ((c2_plain_pairs_preserved _ "si=KuczOyCr1s5_Ou0r&t=173" rfl (by decide)
      (by decide) (by decide) (by decide) (by decide)).1).trans (by decide)

/-- C3 counterexample: stripping is not idempotent in general.  For
`https://youtube.com/a?a=%26si%3Dx&si=y` the first strip decodes the pair
`a=%26si%3Dx` to `a` / `&si=x` and re-encodes it as the query `a=&si=x`,
which again matches the `&si=` heuristic, so a second strip acts again
(returning `Some`, not `None`) and yields query `a=`. -/
theorem c3_counterexample :
    RemoveSi.url_without_si
        { scheme := "https", host := some (Host.domain "youtube.com"),
          path := "/a", query := some "a=%26si%3Dx&si=y", fragment := none }
      = some { scheme := "https", host := some (Host.domain "youtube.com"),
               path := "/a", query := some "a=&si=x", fragment := none } ∧
    RemoveSi.url_without_si
        { scheme := "https", host := some (Host.domain "youtube.com"),
          path := "/a", query := some "a=&si=x", fragment := none }
      = some { scheme := "https", host := some (Host.domain "youtube.com"),
               path := "/a", query := some "a=", fragment := none } := by
  exact ⟨by decide, by decide⟩

/-- C3 (amended): stripping is idempotent on plain queries: for every URL
whose query consists of plain chars (no percent-escapes, no `+`), if
`url_without_si` returns `Some v` then `url_without_si v` returns `None`.
Queries with percent-escapes can re-introduce the `si` heuristic after
decode/re-encode (see the counterexample). -/
theorem c3_idempotent_on_plain_queries (u : Url) (q : String) (v : Url)
    (hq : u.query = some q)
    (hplain : ∀ c ∈ q.toList, plainQueryChar c = true)
    (hv : RemoveSi.url_without_si u = some v) :
    RemoveSi.url_without_si v = none ∧ BotRemoveSi.url_without_si v = none := by
  rw [RemoveSi.url_without_si] at hv
  by_cases hcond : (!RemoveSi.url_belongs_to_youtube u || !RemoveSi.url_has_si u) = true
  · rw [if_pos hcond] at hv
    exact absurd hv (by simp)
  · rw [if_neg hcond] at hv
    have hvv : v = RemoveSi.remove_si_from_url u := (Option.some.inj hv).symm
    subst hvv
    rw [remove_si_from_url_plain u q hq hplain]
    cases hret : ((splitOnChar '&' q.toList).filter (fun p => !p.isEmpty)).filter
        (fun p => (splitKV p).1 != "si".toList) with
    | nil =>
      have hns : RemoveSi.url_has_si { u with query := none } = false := by
        rw [RemoveSi.url_has_si]
      have hfin : RemoveSi.url_without_si { u with query := none } = none := by
        rw [RemoveSi.url_without_si, if_pos (by rw [hns]; simp)]
      exact ⟨hfin, hfin⟩
    | cons r rs =>
      have hclean := clean_intercalate
        ((r :: rs).map (fun p => (splitKV p).1 ++ '=' :: (splitKV p).2)) ?pieceOk
      case pieceOk =>
        intro p' hp'
        obtain ⟨p, hpmem, hpe⟩ := List.mem_map.mp hp'
        subst hpe
        have hpmem' : p ∈ ((splitOnChar '&' q.toList).filter
            (fun p => !p.isEmpty)).filter (fun p => (splitKV p).1 != "si".toList) := by
          rw [hret]; exact hpmem
        have hpin : p ∈ splitOnChar '&' q.toList :=
          List.mem_of_mem_filter (List.mem_of_mem_filter hpmem')
        have hnoamp : '&' ∉ p := sep_not_mem_splitOnChar hpin
        constructor
        · intro hamp
          rcases List.mem_append.mp hamp with hk | hv'
          · exact hnoamp (splitKV_fst_subset p '&' hk)
          · rcases List.mem_cons.mp hv' with he | hvv'
            · exact absurd he (by decide)
            · exact hnoamp (splitKV_snd_subset p '&' hvv')
        · have hne : (splitKV p).1 ≠ "si".toList :=
            bne_iff_ne.mp (List.mem_filter.mp hpmem').2
          intro t
          exact reassembled_si_start_false (splitKV p).2 (eq_not_mem_splitKV_fst p) hne t
      have hns : RemoveSi.url_has_si
          { u with
            query := some (String.mk (intercalateChar '&'
              ((r :: rs).map (fun p => (splitKV p).1 ++ '=' :: (splitKV p).2)))) }
          = false := by
        rw [RemoveSi.url_has_si]
        show ((['s', 'i', '=']).isPrefixOf
            (intercalateChar '&'
              ((r :: rs).map (fun p => (splitKV p).1 ++ '=' :: (splitKV p).2))) ||
          hasSubstr
            (intercalateChar '&'
              ((r :: rs).map (fun p => (splitKV p).1 ++ '=' :: (splitKV p).2)))
            ['&', 's', 'i', '=']) = false
        rw [hclean.1, hclean.2]
        rfl
      have hfin : RemoveSi.url_without_si
          { u with
            query := some (String.mk (intercalateChar '&'
              ((r :: rs).map (fun p => (splitKV p).1 ++ '=' :: (splitKV p).2)))) }
          = none := by
        rw [RemoveSi.url_without_si, if_pos (by rw [hns]; simp)]
      exact ⟨hfin, hfin⟩

/-- Witness for C3: stripping the already-stripped
`https://youtu.be/0FwBHrVuMJc` (query cleared) yields no action. -/
theorem c3_witness :
    RemoveSi.url_without_si
        { scheme := "https", host := some (Host.domain "youtu.be"),
          path := "/0FwBHrVuMJc", query := none, fragment := none } = none ∧
    BotRemoveSi.url_without_si
        { scheme := "https", host := some (Host.domain "youtu.be"),
          path := "/0FwBHrVuMJc", query := none, fragment := none } = none :=
  c3_idempotent_on_plain_queries
    { scheme := "https", host := some (Host.domain "youtu.be"),
      path := "/0FwBHrVuMJc", query := some "si=drdl-LZXYJzZPIce", fragment := none }
    "si=drdl-LZXYJzZPIce"
    { scheme := "https", host := some (Host.domain "youtu.be"),
      path := "/0FwBHrVuMJc", query := none, fragment := none }
    rfl (by decide) (by decide)

/-- C4: for every URL whose host is not exactly one of the recognized
domains (including non-domain hosts), `url_without_si` returns `None`
regardless of the query, in both duplicated implementations. -/
theorem c4_unrecognized_host_returns_none (u : Url)
    (h : ∀ d, u.host = some (Host.domain d) → d ∉ RemoveSi.YOUTUBE_DOMAINS) :
    RemoveSi.url_without_si u = none ∧ BotRemoveSi.url_without_si u = none := by
  have hb : RemoveSi.url_belongs_to_youtube u = false := by
    rw [RemoveSi.url_belongs_to_youtube]
    split
    · next d heq =>
      have hd := h d heq
      simp only [RemoveSi.YOUTUBE_DOMAINS, List.mem_cons, List.not_mem_nil, or_false,
        not_or] at hd
      obtain ⟨h1, h2, h3⟩ := hd
      have e1 : (d == "youtube.com") = false := beq_eq_false_iff_ne.mpr h1
      have e2 : (d == "www.youtube.com") = false := beq_eq_false_iff_ne.mpr h2
      have e3 : (d == "youtu.be") = false := beq_eq_false_iff_ne.mpr h3
      simp [List.contains, List.elem, e1, e2, e3]
    · rfl
  have key : RemoveSi.url_without_si u = none := by
    simp [RemoveSi.url_without_si, hb]
  exact ⟨key, key⟩

/-- Witness for C4 at the suffix-host `https://notyoutube.com/watch?si=x`. -/
theorem c4_witness :
    RemoveSi.url_without_si
        { scheme := "https", host := some (Host.domain "notyoutube.com"),
          path := "/watch", query := some "si=x", fragment := none } = none ∧
    BotRemoveSi.url_without_si
        { scheme := "https", host := some (Host.domain "notyoutube.com"),
          path := "/watch", query := some "si=x", fragment := none } = none :=
  c4_unrecognized_host_returns_none _
    (fun d hd => by
      injection hd with h
      injection h with h2
      subst h2
      decide)

/-- C5: for every recognized-domain URL whose query neither starts with
`si=` nor contains `&si=` (in particular near-miss keys and absent
queries), `url_without_si` returns `None`, in both implementations. -/
theorem c5_no_si_parameter_returns_none (u : Url)
    (_hb : RemoveSi.url_belongs_to_youtube u = true)
    (hq : ∀ q, u.query = some q →
      "si=".toList.isPrefixOf q.toList = false ∧
      hasSubstr q.toList "&si=".toList = false) :
    RemoveSi.url_without_si u = none ∧ BotRemoveSi.url_without_si u = none := by
  have hs : RemoveSi.url_has_si u = false := by
    rw [RemoveSi.url_has_si]
    split
    · rfl
    · next q heq =>
      obtain ⟨h1, h2⟩ := hq q heq
      simpa [String.toList] using And.intro h1 h2
  have key : RemoveSi.url_without_si u = none := by
    simp [RemoveSi.url_without_si, hs]
  exact ⟨key, key⟩

/-- Witness for C5 at `https://www.youtube.com/watch?psi=nFuAJl46w_w`. -/
theorem c5_witness :
    RemoveSi.url_without_si
        { scheme := "https", host := some (Host.domain "www.youtube.com"),
          path := "/watch", query := some "psi=nFuAJl46w_w", fragment := none } = none ∧
    BotRemoveSi.url_without_si
        { scheme := "https", host := some (Host.domain "www.youtube.com"),
          path := "/watch", query := some "psi=nFuAJl46w_w", fragment := none } = none :=
  c5_no_si_parameter_returns_none _ (by decide)
    (fun q hq => by
      injection hq with h
      subst h
      exact ⟨by decide, by decide⟩)

/-- Filtering a pair list whose keys are all `si` through the non-si filter
leaves nothing. -/
theorem filter_all_si_eq_nil :
    ∀ (l : List (List Char × List Char)),
      (∀ kv ∈ l, kv.1 = "si".toList) →
      l.filter (fun kv => kv.1 != "si".toList) = [] := by
  intro l
  induction l with
  | nil => intro _; rfl
  | cons a t ih =>
    intro hl
    have ha := hl a (List.mem_cons_self a t)
    simp only [List.filter, ha, bne_self_eq_false]
    exact ih (fun kv hkv => hl kv (List.mem_cons_of_mem a hkv))

/-- C6: for every recognized-domain URL where `si` is the only query
parameter (the query matches the `si` heuristic and every parsed pair has
key `si`), `url_without_si` returns the same URL with the query component
cleared entirely, and the serialized result contains no `?` at all (in
particular no trailing one). -/
theorem c6_only_si_clears_query (u : Url) (q : String)
    (hq : u.query = some q)
    (hb : RemoveSi.url_belongs_to_youtube u = true)
    (hs : RemoveSi.url_has_si u = true)
    (hall : ∀ kv ∈ parseQueryPairs q.toList, kv.1 = "si".toList)
    (hfrag : u.fragment = none)
    (hscheme : '?' ∉ u.scheme.toList)
    (hpath : '?' ∉ u.path.toList) :
    RemoveSi.url_without_si u = some { u with query := none } ∧
    BotRemoveSi.url_without_si u = some { u with query := none } ∧
    '?' ∉ (serializeUrl { u with query := none }).toList := by
  obtain ⟨sch, host, pth, qq, frag⟩ := u
  simp only at hq hfrag hscheme hpath
  subst hq
  subst hfrag
  have hrem :
      RemoveSi.remove_si_from_url
          { scheme := sch, host := host, path := pth, query := some q, fragment := none }
        = { scheme := sch, host := host, path := pth, query := none, fragment := none } := by
    rw [RemoveSi.remove_si_from_url]
    simp only [Option.getD]
    rw [filter_all_si_eq_nil _ hall]
  have key :
      RemoveSi.url_without_si
          { scheme := sch, host := host, path := pth, query := some q, fragment := none }
        = some { scheme := sch, host := host, path := pth, query := none, fragment := none } := by
    rw [RemoveSi.url_without_si, hb, hs, hrem]
    rfl
  refine ⟨key, key, ?_⟩
  -- extract the concrete recognized domain from the host check
  have hdom : ∃ d, host = some (Host.domain d) ∧
      (d = "youtube.com" ∨ d = "www.youtube.com" ∨ d = "youtu.be") := by
    rw [RemoveSi.url_belongs_to_youtube] at hb
    revert hb
    split
    · next d heq =>
      intro hb
      refine ⟨d, heq, ?_⟩
      by_cases h1 : d = "youtube.com"
      · exact Or.inl h1
      by_cases h2 : d = "www.youtube.com"
      · exact Or.inr (Or.inl h2)
      by_cases h3 : d = "youtu.be"
      · exact Or.inr (Or.inr h3)
      · exfalso
        have e1 : (d == "youtube.com") = false := beq_eq_false_iff_ne.mpr h1
        have e2 : (d == "www.youtube.com") = false := beq_eq_false_iff_ne.mpr h2
        have e3 : (d == "youtu.be") = false := beq_eq_false_iff_ne.mpr h3
        simp [RemoveSi.YOUTUBE_DOMAINS, List.contains, List.elem, e1, e2, e3] at hb
    · intro hb
      exact absurd hb (by simp)
  obtain ⟨d, hhost, hd⟩ := hdom
  subst hhost
  intro hmem
  simp only [serializeUrl, serializeUrlChars, String.toList, hostChars] at hmem
  simp only [List.mem_append, List.mem_cons, List.append_nil] at hmem
  rcases hmem with h | h | h
  · exact hscheme h
  · exact absurd h (by decide)
  rcases h with h | h
  · rcases h with h | h
    · exact absurd h (by decide)
    rcases h with h | h
    · exact absurd h (by decide)
    · rcases hd with hd | hd | hd <;> subst hd <;> revert h <;> decide
  · exact hpath h

/-- Witness for C6 at `https://youtu.be/0FwBHrVuMJc?si=drdl-LZXYJzZPIce`
(the first test vector of the repository). -/
theorem c6_witness :
    RemoveSi.url_without_si
        { scheme := "https", host := some (Host.domain "youtu.be"),
          path := "/0FwBHrVuMJc", query := some "si=drdl-LZXYJzZPIce",
          fragment := none }
      = some { scheme := "https", host := some (Host.domain "youtu.be"),
               path := "/0FwBHrVuMJc", query := none, fragment := none } :=
  (c6_only_si_clears_query _ "si=drdl-LZXYJzZPIce" rfl (by decide) (by decide)
    (by decide) rfl (by decide) (by decide)).1

/-- C7: the URL extractor never aborts on a malformed entity: no text or no
entities yields the empty sequence; a plain-URL entity whose slice is out of
bounds is skipped while extraction continues with the remaining entities;
a slice failing to parse for lack of a scheme is retried with `https://`
prepended, a parse success is emitted, and only a final failure (a
non-relative error) skips the entity. -/
theorem c7_extractor_robustness :
    (∀ m : Message, m.text = none ∨ m.entities = none →
      BotRemoveSi.message_url_iterator m = []) ∧
    (∀ (text : String) (es1 es2 : List MessageEntity) (e : MessageEntity)
        (cid mid : Int) (rep : Option RepliedMessage),
      e.kind = EntityKind.url →
      text.toList.length < e.offset + e.length →
      BotRemoveSi.message_url_iterator
          { text := some text, entities := some (es1 ++ e :: es2),
            chatId := cid, msgId := mid, replyToMessage := rep }
        = BotRemoveSi.message_url_iterator
          { text := some text, entities := some (es1 ++ es2),
            chatId := cid, msgId := mid, replyToMessage := rep }) ∧
    (∀ s : String, parseUrl s = Except.error ParseError.relativeUrlWithoutBase →
      BotRemoveSi.try_parse_url s = (parseUrl ("https://" ++ s)).toOption) ∧
    (∀ (s : String) (u : Url), parseUrl s = Except.ok u →
      BotRemoveSi.try_parse_url s = some u) ∧
    (∀ (s : String) (e : ParseError), parseUrl s = Except.error e →
      e ≠ ParseError.relativeUrlWithoutBase →
      BotRemoveSi.try_parse_url s = none) := by
  refine ⟨?_, ?_, ?_, ?_, ?_⟩
  · intro m h
    cases m with
    | mk t ents cid mid rep =>
      rcases h with h | h
      · have ht : t = none := h
        subst ht
        rfl
      · have he : ents = none := h
        subst he
        cases t <;> rfl
  · intro text es1 es2 e cid mid rep hk hlen
    have he : BotRemoveSi.entity_url text e = none := by
      rw [BotRemoveSi.entity_url, hk]
      have hs : sliceText text e.offset e.length = none := by
        rw [sliceText, if_neg (by omega)]
      rw [hs]
      rfl
    simp [BotRemoveSi.message_url_iterator, List.filterMap_append,
      List.filterMap_cons, he]
  · intro s h
    rw [BotRemoveSi.try_parse_url, h]
  · intro s u h
    rw [BotRemoveSi.try_parse_url, h]
    rfl
  · intro s e h hne
    rw [BotRemoveSi.try_parse_url, h]
    cases e with
    | relativeUrlWithoutBase => exact absurd rfl hne
    | emptyHost => rfl

/-- Witness for C7: a message whose first entity is an out-of-bounds
plain-URL entity yields the same URLs as the message without it, and a
scheme-less slice is retried with `https://` prepended. -/
theorem c7_witness :
    BotRemoveSi.message_url_iterator
        { text := some "0123456789",
          entities := some
            ({ kind := EntityKind.url, offset := 4, length := 10 } ::
              [{ kind := EntityKind.textLink
                   { scheme := "https", host := some (Host.domain "youtu.be"),
                     path := "/abc", query := some "si=x", fragment := none },
                 offset := 0, length := 1 }]),
          chatId := 1, msgId := 2, replyToMessage := none }
      = BotRemoveSi.message_url_iterator
        { text := some "0123456789",
          entities := some
            [{ kind := EntityKind.textLink
                 { scheme := "https", host := some (Host.domain "youtu.be"),
                   path := "/abc", query := some "si=x", fragment := none },
               offset := 0, length := 1 }],
          chatId := 1, msgId := 2, replyToMessage := none } ∧
    BotRemoveSi.try_parse_url "youtu.be/abc"
      = (parseUrl ("https://" ++ "youtu.be/abc")).toOption :=
  ⟨c7_extractor_robustness.2.1 "0123456789" []
      [{ kind := EntityKind.textLink
           { scheme := "https", host := some (Host.domain "youtu.be"),
             path := "/abc", query := some "si=x", fragment := none },
         offset := 0, length := 1 }]
      { kind := EntityKind.url, offset := 4, length := 10 } 1 2 none rfl (by decide),
   c7_extractor_robustness.2.2.1 "youtu.be/abc" rfl⟩

/-- C8: the reply of the `remove_si` handler is fully determined by the
sequence of surviving stripped URLs: empty sequence means no outbound send
and a success result; one survivor yields the singular header followed by
that URL on its own line; several survivors yield the plural header
followed by each URL on its own line in extraction order. -/
theorem c8_reply_composition (m : Message) (outcomes : Nat → BotRemoveSi.SendOutcome) :
    ((BotRemoveSi.message_url_iterator m).filterMap BotRemoveSi.url_without_si = [] →
      BotRemoveSi.remove_si m outcomes = (Except.ok (), none)) ∧
    (∀ u, (BotRemoveSi.message_url_iterator m).filterMap BotRemoveSi.url_without_si = [u] →
      (BotRemoveSi.remove_si m outcomes).2
        = some ("The link without tracking:\n" ++ (serializeUrl u ++ "\n"))) ∧
    (∀ u v rest,
      (BotRemoveSi.message_url_iterator m).filterMap BotRemoveSi.url_without_si
        = u :: v :: rest →
      (BotRemoveSi.remove_si m outcomes).2
        = some ("The links without tracking:\n"
            ++ String.join ((u :: v :: rest).map fun w => serializeUrl w ++ "\n"))) ∧
    (∀ m', (BotRemoveSi.message_url_iterator m').filterMap BotRemoveSi.url_without_si
        = (BotRemoveSi.message_url_iterator m).filterMap BotRemoveSi.url_without_si →
      (BotRemoveSi.remove_si m' outcomes).2 = (BotRemoveSi.remove_si m outcomes).2) := by
  refine ⟨?_, ?_, ?_, ?_⟩
  · intro h
    rw [BotRemoveSi.remove_si, h]
  · intro u h
    rw [BotRemoveSi.remove_si, h]
    show some (List.foldl _ _ _) = _
    rw [foldl_urls_eq_join serializeUrl]
    simp [string_join_cons, string_append_nil, String.join]
  · intro u v rest h
    rw [BotRemoveSi.remove_si, h]
    show some (List.foldl _ _ _) = _
    rw [foldl_urls_eq_join serializeUrl]
    simp [List.isEmpty]
  · intro m' h
    rw [BotRemoveSi.remove_si, h, BotRemoveSi.remove_si]

/-- Witness for C8: a message with exactly one surviving URL produces the
singular header followed by the stripped URL on its own line. -/
theorem c8_witness :
    (BotRemoveSi.remove_si
        { text := some "x",
          entities := some
            [{ kind := EntityKind.textLink
                 { scheme := "https", host := some (Host.domain "youtu.be"),
                   path := "/abc", query := some "si=x", fragment := none },
               offset := 0, length := 1 }],
          chatId := 1, msgId := 2, replyToMessage := none }
        (fun _ => BotRemoveSi.SendOutcome.ok)).2
      = some ("The link without tracking:\n"
          ++ (serializeUrl
                { scheme := "https", host := some (Host.domain "youtu.be"),
                  path := "/abc", query := none, fragment := none } ++ "\n")) :=
  (c8_reply_composition _ _).2.1
    { scheme := "https", host := some (Host.domain "youtu.be"),
      path := "/abc", query := none, fragment := none }
    (by decide)

/-- C9: `thank_react_filter` returns true exactly when the message carries
a replied-to message whose author is present and equals the bot identity. -/
theorem c9_thank_react_filter_iff (me : Me) (m : Message) :
    ThankReact.thank_react_filter me m = true ↔
      ∃ origin, m.replyToMessage = some origin ∧
        ∃ u, origin.fromUser = some u ∧ u.id = me.id := by
  rw [ThankReact.thank_react_filter]
  cases h : m.replyToMessage with
  | none => simp
  | some origin =>
    cases h2 : origin.fromUser with
    | none => simp [h2]
    | some from_user => simp [h2, beq_iff_eq]

/-- Witness for C9: a reply to a message authored by the bot passes the
filter; the same message fails against a different bot identity. -/
theorem c9_witness :
    ThankReact.thank_react_filter { id := 42 }
      { text := none, entities := none, chatId := 0, msgId := 0,
        replyToMessage := some { fromUser := some { id := 42 } } } = true :=
  (c9_thank_react_filter_iff { id := 42 } _).mpr
    ⟨{ fromUser := some { id := 42 } }, rfl, { id := 42 }, rfl, rfl⟩

/-- C10: the stripper in src/remove_si.rs and the one duplicated in
src/bot/remove_si.rs are extensionally equal. -/
theorem c10_duplicated_strippers_agree (u : Url) :
    RemoveSi.url_without_si u = BotRemoveSi.url_without_si u := rfl

/-- Witness for C10 at a concrete recognized-domain URL. -/
theorem c10_witness :
    RemoveSi.url_without_si
        { scheme := "https", host := some (Host.domain "youtube.com"),
          path := "/watch", query := some "v=1&si=2", fragment := none }
      = BotRemoveSi.url_without_si
        { scheme := "https", host := some (Host.domain "youtube.com"),
          path := "/watch", query := some "v=1&si=2", fragment := none } :=
  c10_duplicated_strippers_agree _

end YoutubeNoSi
